import Mathlib

/-!
Verification of the Assignment Ledger & Proportional Allocation Engine of the
Receipt-Classification repository.

The embedding models JavaScript objects (string-keyed maps) as association
lists with insertion-order semantics: property update (`setA`) replaces the
value in place when the key exists and appends a new entry otherwise, and
`delete` (`eraseA`) removes the key's entries.  JavaScript numbers are
modelled as rationals.

Embedded code:
* the operation-applying loop of `processSplitCommand` (src/unnamed/part_000,
  lines 224-238) becomes `applyOp` / `applyOps`;
* the summary computation of the `Summary` component
  (src/components/Summary.tsx, lines 10-57) becomes `accumTotals`,
  `rawSummaries` and `summarize`; the final `Array.prototype.sort` with
  comparator `(a, b) => b.total - a.total` is stable by the ECMAScript
  specification and descending, so it is modelled by a stable insertion sort
  with relation `psGE a b := b.total ≤ a.total`.
-/

/-- Look up a key in an association list (JS property read): first entry with
the key, if any. -/
def lookupA {β : Type} : List (String × β) → String → Option β
  | [], _ => none
  | (k, v) :: rest, key => if k = key then some v else lookupA rest key

/-- JS property write `m[key] = v`: replace the value in place when the key is
present, append a new entry at the end otherwise (insertion-order semantics of
JS objects). -/
def setA {β : Type} : List (String × β) → String → β → List (String × β)
  | [], key, v => [(key, v)]
  | (k, w) :: rest, key, v =>
      if k = key then (key, v) :: rest else (k, w) :: setA rest key v

/-- JS `delete m[key]`: remove the key's entries; removing an absent key is a
no-op. -/
def eraseA {β : Type} : List (String × β) → String → List (String × β)
  | [], _ => []
  | (k, v) :: rest, key =>
      if k = key then eraseA rest key else (k, v) :: eraseA rest key

/-- The keys of an association list, in order. -/
def keysOf {β : Type} (m : List (String × β)) : List String :=
  m.map Prod.fst

/-- `ReceiptItem` from src/unnamed/part_000 (types), with `price : ℚ`. -/
structure ReceiptItem where
  id : String
  name : String
  price : ℚ
deriving DecidableEq

/-- `ReceiptData` from src/unnamed/part_000 (types). -/
structure ReceiptData where
  items : List ReceiptItem
  subtotal : ℚ
  tax : ℚ
  tip : ℚ
  total : ℚ
deriving DecidableEq

/-- Per-item share map: person name → share fraction. -/
abbrev ShareMap := List (String × ℚ)

/-- `Assignments` from src/unnamed/part_000 (types): item id → share map. -/
abbrev Assignments := List (String × ShareMap)

/-- One operation of the batch consumed by `processSplitCommand`'s apply loop:
`{itemId, people, action}`; `people` is `none` when the field is missing. -/
structure Op where
  itemId : String
  people : Option (List String)
  action : String
deriving DecidableEq

/-- `PersonSummary` from src/unnamed/part_000 (types). -/
structure PersonSummary where
  name : String
  itemsTotal : ℚ
  taxShare : ℚ
  tipShare : ℚ
  total : ℚ
deriving DecidableEq

/-- The share map built by an `assign` operation (part_000 lines 231-235):
`share = 1.0 / op.people.length`, then each listed person is written into a
fresh object. -/
def buildShares (people : List String) : ShareMap :=
  let share : ℚ := 1 / (people.length : ℚ)
  people.foldl (fun m person => setA m person share) []

/-- One iteration of the operation loop of `processSplitCommand`
(part_000 lines 227-237): `clear` deletes the item's entry; `assign` with a
present, non-empty people list replaces the item's entry with equal shares;
anything else is a no-op. -/
def applyOp (L : Assignments) (op : Op) : Assignments :=
  if op.action = "clear" then
    eraseA L op.itemId
  else if op.action = "assign" then
    match op.people with
    | some ps => if 0 < ps.length then setA L op.itemId (buildShares ps) else L
    | none => L
  else L

/-- The whole operation loop (part_000 lines 226-238): operations are applied
strictly in order to a copy of the current assignments. -/
def applyOps (L : Assignments) (ops : List Op) : Assignments :=
  ops.foldl applyOp L

/-- Accumulation of one `(person, share)` pair of an item's assignment map
(Summary.tsx lines 20-34): `cost = item.price * share`, a missing person is
created with `itemsTotal` 0, then `itemsTotal += cost`. -/
def accumPair (price : ℚ) (acc : List (String × ℚ)) (pr : String × ℚ) :
    List (String × ℚ) :=
  let cost := price * pr.2
  match lookupA acc pr.1 with
  | some prev => setA acc pr.1 (prev + cost)
  | none => setA acc pr.1 (0 + cost)

/-- Accumulation of one receipt item (Summary.tsx lines 16-35):
`itemAssigns = assignments[item.id] || {}`, then every `(person, share)` pair
is accumulated. -/
def accumItem (assignments : Assignments) (acc : List (String × ℚ))
    (item : ReceiptItem) : List (String × ℚ) :=
  ((lookupA assignments item.id).getD []).foldl (accumPair item.price) acc

/-- The `peopleMap` accumulation over all receipt items (Summary.tsx lines
13-35), kept as name → accumulated `itemsTotal` in first-encountered order. -/
def accumTotals (receipt : ReceiptData) (assignments : Assignments) :
    List (String × ℚ) :=
  receipt.items.foldl (accumItem assignments) []

/-- The people list before sorting (Summary.tsx lines 43-54):
`safeSubtotal = receiptData.subtotal || 1`, then each person's tax/tip share
and total are computed from `ratio = itemsTotal / safeSubtotal`. -/
def rawSummaries (receipt : ReceiptData) (assignments : Assignments) :
    List PersonSummary :=
  let safeSubtotal : ℚ := if receipt.subtotal = 0 then 1 else receipt.subtotal
  (accumTotals receipt assignments).map (fun pr =>
    let ratio := pr.2 / safeSubtotal
    let taxShare := receipt.tax * ratio
    let tipShare := receipt.tip * ratio
    { name := pr.1, itemsTotal := pr.2, taxShare := taxShare,
      tipShare := tipShare, total := pr.2 + taxShare + tipShare })

/-- The sort relation of Summary.tsx line 56: comparator
`(a, b) => b.total - a.total`, i.e. descending by `total`. -/
def psGE (a b : PersonSummary) : Prop := b.total ≤ a.total

instance : DecidableRel psGE :=
  fun a b => inferInstanceAs (Decidable (b.total ≤ a.total))

instance : IsTotal PersonSummary psGE :=
  ⟨fun a b => le_total b.total a.total⟩

instance : IsTrans PersonSummary psGE :=
  ⟨fun _ _ _ h1 h2 => le_trans h2 h1⟩

/-- The full summary computation of the `Summary` component (Summary.tsx
lines 10-57): accumulate, prorate, then stable-sort by total descending. -/
def summarize (receipt : ReceiptData) (assignments : Assignments) :
    List PersonSummary :=
  List.insertionSort psGE (rawSummaries receipt assignments)

/-- Sum of the share fractions recorded in a share map. -/
def sumShares (m : ShareMap) : ℚ :=
  m.foldl (fun a pr => a + pr.2) 0

/-- The ledger invariant of the spec: every stored share lies in `(0, 1]`
(hence no person appears as a key with share 0). -/
def WFshares (L : Assignments) : Prop :=
  ∀ e ∈ L, ∀ pr ∈ e.2, 0 < pr.2 ∧ pr.2 ≤ 1

/-- Well-formedness of one operation as hypothesised by the spec's invariant
claim: an `assign` operation carries a non-empty, duplicate-free people
list. -/
def okOp (op : Op) : Prop :=
  match op.people with
  | none => True
  | some ps => op.action = "assign" → ps ≠ [] ∧ ps.Nodup

/-- A malformed operation in the sense of the spec: an action that is neither
`assign` nor `clear`, or an `assign` whose people list is missing or empty. -/
def malformedOp (op : Op) : Prop :=
  (op.action ≠ "assign" ∧ op.action ≠ "clear") ∨
  (op.action = "assign" ∧ (op.people = none ∨ op.people = some []))

theorem lookupA_setA_self {β : Type} (m : List (String × β)) (k : String)
    (v : β) : lookupA (setA m k v) k = some v := by
  induction m with
  | nil => simp [setA, lookupA]
  | cons hd tl ih =>
      obtain ⟨k', v'⟩ := hd
      by_cases h : k' = k
      · simp [setA, h, lookupA]
      · simp [setA, h, lookupA, ih]

theorem lookupA_setA_ne {β : Type} (m : List (String × β)) (k j : String)
    (v : β) (h : j ≠ k) : lookupA (setA m k v) j = lookupA m j := by
  induction m with
  | nil => simp [setA, lookupA, Ne.symm h]
  | cons hd tl ih =>
      obtain ⟨k', v'⟩ := hd
      by_cases hk : k' = k
      · subst hk
        simp [setA, lookupA, Ne.symm h]
      · simp only [setA, if_neg hk, lookupA]
        by_cases hj : k' = j
        · simp [hj]
        · simp [hj, ih]

theorem lookupA_eraseA_self {β : Type} (m : List (String × β)) (k : String) :
    lookupA (eraseA m k) k = none := by
  induction m with
  | nil => simp [eraseA, lookupA]
  | cons hd tl ih =>
      obtain ⟨k', v'⟩ := hd
      by_cases h : k' = k
      · simp [eraseA, h, ih]
      · simp [eraseA, h, lookupA, ih]

theorem lookupA_eraseA_ne {β : Type} (m : List (String × β)) (k j : String)
    (h : j ≠ k) : lookupA (eraseA m k) j = lookupA m j := by
  induction m with
  | nil => simp [eraseA]
  | cons hd tl ih =>
      obtain ⟨k', v'⟩ := hd
      by_cases hk : k' = k
      · subst hk
        simp [eraseA, lookupA, Ne.symm h, ih]
      · simp only [eraseA, if_neg hk, lookupA]
        by_cases hj : k' = j
        · simp [hj]
        · simp [hj, ih]

theorem eraseA_idem {β : Type} (m : List (String × β)) (k : String) :
    eraseA (eraseA m k) k = eraseA m k := by
  induction m with
  | nil => simp [eraseA]
  | cons hd tl ih =>
      obtain ⟨k', v'⟩ := hd
      by_cases h : k' = k
      · simp [eraseA, h, ih]
      · simp [eraseA, h, ih]

theorem eraseA_of_lookupA_none {β : Type} (m : List (String × β))
    (k : String) (h : lookupA m k = none) : eraseA m k = m := by
  induction m with
  | nil => simp [eraseA]
  | cons hd tl ih =>
      obtain ⟨k', v'⟩ := hd
      by_cases hk : k' = k
      · simp [lookupA, hk] at h
      · simp only [lookupA, if_neg hk] at h
        simp [eraseA, hk, ih h]

theorem applyOps_cons (L : Assignments) (op : Op) (ops : List Op) :
    applyOps L (op :: ops) = applyOps (applyOp L op) ops := rfl

theorem applyOps_append (L : Assignments) (l1 l2 : List Op) :
    applyOps L (l1 ++ l2) = applyOps (applyOps L l1) l2 :=
  List.foldl_append _ _ _ _

theorem applyOp_clear (L : Assignments) (i : String)
    (people : Option (List String)) :
    applyOp L ⟨i, people, "clear"⟩ = eraseA L i := by
  simp [applyOp]

theorem applyOp_assign (L : Assignments) (i : String) (ps : List String)
    (h : ps ≠ []) :
    applyOp L ⟨i, some ps, "assign"⟩ = setA L i (buildShares ps) := by
  simp [applyOp, List.length_pos, h]

theorem applyOps_singleton (L : Assignments) (op : Op) :
    applyOps L [op] = applyOp L op := rfl

theorem applyOps_pair (L : Assignments) (o1 o2 : Op) :
    applyOps L [o1, o2] = applyOp (applyOp L o1) o2 := rfl

theorem buildShares_singleton (A : String) : buildShares [A] = [(A, 1)] := by
  simp [buildShares, setA]

theorem applyOp_malformed (L : Assignments) (op : Op) (h : malformedOp op) :
    applyOp L op = L := by
  rcases h with ⟨h1, h2⟩ | ⟨h1, h2⟩
  · simp [applyOp, h1, h2]
  · rcases h2 with h2 | h2 <;> simp [applyOp, h1, h2]

/-- C2: applying an assign operation for item `i` overwrites that item's
entire share map: after assigning `[A, B]` and then `[C]`, item `i` maps
exactly to `{C: 1.0}`, with no entry for `A` or `B` remaining. -/
theorem C2_assign_overwrites (L : Assignments) (i A B C : String) :
    lookupA (applyOps (applyOps L [⟨i, some [A, B], "assign"⟩])
      [⟨i, some [C], "assign"⟩]) i = some [(C, 1)] := by
  rw [applyOps_singleton, applyOps_singleton,
    applyOp_assign _ _ _ (by simp), applyOp_assign _ _ _ (by simp),
    lookupA_setA_self, buildShares_singleton]

/-- C3: operations in a batch are applied strictly in order with
last-write-wins per item: `[assign(i,[A]), clear(i)]` leaves `i` absent,
while `[clear(i), assign(i,[A])]` leaves `i` mapping to `{A: 1.0}`. -/
theorem C3_last_write_wins (L : Assignments) (i A : String) :
    lookupA (applyOps L [⟨i, some [A], "assign"⟩, ⟨i, none, "clear"⟩]) i
      = none ∧
    lookupA (applyOps L [⟨i, none, "clear"⟩, ⟨i, some [A], "assign"⟩]) i
      = some [(A, 1)] := by
  constructor
  · rw [applyOps_pair, applyOp_assign _ _ _ (by simp), applyOp_clear,
      lookupA_eraseA_self]
  · rw [applyOps_pair, applyOp_clear, applyOp_assign _ _ _ (by simp),
      lookupA_setA_self, buildShares_singleton]

/-- C4: the apply loop is total and absorbs malformed input: a malformed
operation (action neither `assign` nor `clear`, or an `assign` with a missing
or empty people list) is a no-op while the rest of the batch still applies;
in particular `[assign("item-9", [])]` leaves every ledger unchanged. -/
theorem C4_malformed_noop :
    (∀ (L : Assignments) (pre post : List Op) (op : Op), malformedOp op →
      applyOps L (pre ++ op :: post) = applyOps L (pre ++ post)) ∧
    (∀ L : Assignments, applyOps L [⟨"item-9", some [], "assign"⟩] = L) := by
  constructor
  · intro L pre post op h
    rw [applyOps_append, applyOps_append, applyOps_cons,
      applyOp_malformed _ _ h]
  · intro L
    exact applyOp_malformed L ⟨"item-9", some [], "assign"⟩
      (Or.inr ⟨rfl, Or.inr rfl⟩)

/-- Witness for C4 at a concrete input: an operation with action
`"teleport"` in the middle of a batch is skipped while the rest applies. -/
theorem C4_malformed_noop_witness :
    applyOps [("item-0", [("A", (1 : ℚ))])]
        ([⟨"item-0", some ["B"], "assign"⟩] ++
          (⟨"x", none, "teleport"⟩ : Op) :: []) =
      applyOps [("item-0", [("A", (1 : ℚ))])]
        ([⟨"item-0", some ["B"], "assign"⟩] ++ []) :=
  C4_malformed_noop.1 _ _ _ _ (Or.inl ⟨by decide, by decide⟩)

theorem setA_of_lookupA_none {β : Type} (m : List (String × β)) (k : String)
    (v : β) (h : lookupA m k = none) : setA m k v = m ++ [(k, v)] := by
  induction m with
  | nil => simp [setA]
  | cons hd tl ih =>
      obtain ⟨k', v'⟩ := hd
      by_cases hk : k' = k
      · simp [lookupA, hk] at h
      · simp only [lookupA, if_neg hk] at h
        simp [setA, hk, ih h]

theorem lookupA_append_left_none {β : Type} (m1 m2 : List (String × β))
    (k : String) (h : lookupA m1 k = none) :
    lookupA (m1 ++ m2) k = lookupA m2 k := by
  induction m1 with
  | nil => simp
  | cons hd tl ih =>
      obtain ⟨k', v'⟩ := hd
      by_cases hk : k' = k
      · simp [lookupA, hk] at h
      · simp only [lookupA, if_neg hk] at h
        simp [lookupA, hk, ih h]

theorem foldl_setA_fresh {β : Type} (v : β) (ps : List String) :
    ∀ m : List (String × β), ps.Nodup → (∀ p ∈ ps, lookupA m p = none) →
      ps.foldl (fun acc person => setA acc person v) m
        = m ++ ps.map (fun p => (p, v)) := by
  induction ps with
  | nil => intro m _ _; simp
  | cons p ps ih =>
      intro m hnd hnone
      rw [List.foldl_cons, setA_of_lookupA_none m p v (hnone p (by simp)),
        ih (m ++ [(p, v)]) (List.nodup_cons.mp hnd).2 ?fresh]
      · simp
      case fresh =>
        intro q hq
        have hqp : q ≠ p := by
          rintro rfl
          exact (List.nodup_cons.mp hnd).1 hq
        rw [lookupA_append_left_none _ _ _ (hnone q (by simp [hq]))]
        simp [lookupA, Ne.symm hqp]

theorem buildShares_of_nodup (ps : List String) (h : ps.Nodup) :
    buildShares ps = ps.map (fun p => (p, 1 / (ps.length : ℚ))) := by
  unfold buildShares
  rw [foldl_setA_fresh _ ps [] h (by intro p _; rfl)]
  simp

theorem lookupA_map_const {β : Type} (v : β) (ps : List String) (p : String)
    (h : p ∈ ps) : lookupA (ps.map (fun q => (q, v))) p = some v := by
  induction ps with
  | nil => cases h
  | cons q qs ih =>
      by_cases hq : q = p
      · simp [lookupA, hq]
      · have hmem : p ∈ qs := by
          rcases List.mem_cons.mp h with h1 | h1
          · exact absurd h1.symm hq
          · exact h1
        simp [lookupA, hq, ih hmem]

theorem foldl_add_snd (ps : List String) (v : ℚ) :
    ∀ a : ℚ, (ps.map (fun q => (q, v))).foldl (fun a pr => a + pr.2) a
      = a + ps.length * v := by
  induction ps with
  | nil => intro a; simp
  | cons q qs ih =>
      intro a
      simp only [List.map_cons, List.foldl_cons, ih, List.length_cons]
      push_cast
      ring

theorem sumShares_map_const (ps : List String) (v : ℚ) :
    sumShares (ps.map (fun q => (q, v))) = ps.length * v := by
  unfold sumShares
  rw [foldl_add_snd, zero_add]

/-- C5: for `assign(i, people)` with `n ≥ 1` distinct people, every listed
person's recorded share of item `i` equals `1/n`, and the shares recorded for
item `i` sum to exactly `1` (hence within the `1e-9` tolerance). -/
theorem C5_equal_share_partition (L : Assignments) (i : String)
    (ps : List String) (h1 : ps ≠ []) (h2 : ps.Nodup) :
    (∀ p ∈ ps,
      lookupA ((lookupA (applyOps L [⟨i, some ps, "assign"⟩]) i).getD []) p
        = some (1 / (ps.length : ℚ))) ∧
    sumShares ((lookupA (applyOps L [⟨i, some ps, "assign"⟩]) i).getD [])
      = 1 ∧
    |sumShares ((lookupA (applyOps L [⟨i, some ps, "assign"⟩]) i).getD [])
        - 1| ≤ 1 / 1000000000 := by
  have hlk : (lookupA (applyOps L [⟨i, some ps, "assign"⟩]) i).getD []
      = buildShares ps := by
    rw [applyOps_singleton, applyOp_assign _ _ _ h1, lookupA_setA_self]
    rfl
  rw [hlk]
  have hn : (ps.length : ℚ) ≠ 0 :=
    Nat.cast_ne_zero.mpr (by simpa using h1)
  have hsum : sumShares (buildShares ps) = 1 := by
    rw [buildShares_of_nodup ps h2, sumShares_map_const, mul_one_div,
      div_self hn]
  refine ⟨?_, hsum, by rw [hsum]; norm_num⟩
  intro p hp
  rw [buildShares_of_nodup ps h2, lookupA_map_const _ _ p hp]

/-- Witness for C5: assigning `["A", "B"]` to `item-0` gives each listed
person share `1/2` and the recorded shares sum to `1`. -/
theorem C5_equal_share_partition_witness :
    lookupA ((lookupA (applyOps []
        [⟨"item-0", some ["A", "B"], "assign"⟩]) "item-0").getD []) "A"
      = some (1 / ((["A", "B"] : List String).length : ℚ)) ∧
    sumShares ((lookupA (applyOps []
        [⟨"item-0", some ["A", "B"], "assign"⟩]) "item-0").getD []) = 1 :=
  ⟨(C5_equal_share_partition [] "item-0" ["A", "B"] (by decide)
      (by decide)).1 "A" (by decide),
   (C5_equal_share_partition [] "item-0" ["A", "B"] (by decide)
      (by decide)).2.1⟩

theorem mem_setA {β : Type} (m : List (String × β)) (k : String) (v : β)
    (e : String × β) (h : e ∈ setA m k v) : e ∈ m ∨ e = (k, v) := by
  induction m with
  | nil =>
      simp only [setA, List.mem_singleton] at h
      exact Or.inr h
  | cons hd tl ih =>
      obtain ⟨k', v'⟩ := hd
      by_cases hk : k' = k
      · simp only [setA, if_pos hk] at h
        rcases List.mem_cons.mp h with h1 | h1
        · exact Or.inr h1
        · exact Or.inl (List.mem_cons_of_mem _ h1)
      · simp only [setA, if_neg hk] at h
        rcases List.mem_cons.mp h with h1 | h1
        · exact Or.inl (h1 ▸ List.mem_cons_self _ _)
        · rcases ih h1 with h2 | h2
          · exact Or.inl (List.mem_cons_of_mem _ h2)
          · exact Or.inr h2

theorem mem_eraseA {β : Type} (m : List (String × β)) (k : String)
    (e : String × β) (h : e ∈ eraseA m k) : e ∈ m := by
  induction m with
  | nil =>
      simp only [eraseA] at h
      exact h
  | cons hd tl ih =>
      obtain ⟨k', v'⟩ := hd
      by_cases hk : k' = k
      · simp only [eraseA, if_pos hk] at h
        exact List.mem_cons_of_mem _ (ih h)
      · simp only [eraseA, if_neg hk] at h
        rcases List.mem_cons.mp h with h1 | h1
        · exact h1 ▸ List.mem_cons_self _ _
        · exact List.mem_cons_of_mem _ (ih h1)

theorem foldl_setA_const_snd {β : Type} (v : β) (ps : List String) :
    ∀ m : List (String × β), (∀ q ∈ m, q.2 = v) →
      ∀ pr ∈ ps.foldl (fun acc p => setA acc p v) m, pr.2 = v := by
  induction ps with
  | nil => intro m hm pr hpr; exact hm pr hpr
  | cons p ps ih =>
      intro m hm pr hpr
      refine ih (setA m p v) ?_ pr hpr
      intro q hq
      rcases mem_setA _ _ _ _ hq with h1 | h1
      · exact hm q h1
      · rw [h1]

theorem buildShares_snd (ps : List String) (pr : String × ℚ)
    (h : pr ∈ buildShares ps) : pr.2 = 1 / (ps.length : ℚ) :=
  foldl_setA_const_snd _ ps [] (by simp) pr h

theorem WFshares_applyOp (L : Assignments) (op : Op) (h : WFshares L) :
    WFshares (applyOp L op) := by
  obtain ⟨oid, opeople, oaction⟩ := op
  unfold applyOp
  dsimp only
  by_cases hc : oaction = "clear"
  · rw [if_pos hc]
    intro e he
    exact h e (mem_eraseA _ _ _ he)
  · rw [if_neg hc]
    by_cases ha : oaction = "assign"
    · rw [if_pos ha]
      cases opeople with
      | none => exact h
      | some ps =>
          dsimp only
          by_cases hlen : 0 < ps.length
          · rw [if_pos hlen]
            intro e he
            rcases mem_setA _ _ _ _ he with he' | he'
            · exact h e he'
            · subst he'
              intro pr hpr
              rw [buildShares_snd ps pr hpr]
              have hq : (0 : ℚ) < (ps.length : ℚ) := by exact_mod_cast hlen
              constructor
              · exact one_div_pos.mpr hq
              · rw [div_le_one hq]
                exact_mod_cast hlen
          · rw [if_neg hlen]
            exact h
    · rw [if_neg ha]
      exact h

theorem WFshares_applyOps (L : Assignments) (ops : List Op)
    (h : WFshares L) : WFshares (applyOps L ops) := by
  induction ops generalizing L with
  | nil => exact h
  | cons op ops ih => exact ih _ (WFshares_applyOp _ _ h)

/-- C9: the ledger invariant (every stored share lies in `(0, 1]`, so no
person appears as a key with share 0) is preserved by the apply loop for
batches whose `assign`s carry non-empty, duplicate-free people lists;
moreover `clear` is idempotent and clearing an absent item id leaves the
ledger unchanged. -/
theorem C9_invariant_clear_idem :
    (∀ (L : Assignments) (ops : List Op), WFshares L →
      (∀ op ∈ ops, okOp op) → WFshares (applyOps L ops)) ∧
    (∀ (L : Assignments) (i : String),
      applyOps (applyOps L [⟨i, none, "clear"⟩]) [⟨i, none, "clear"⟩]
        = applyOps L [⟨i, none, "clear"⟩]) ∧
    (∀ (L : Assignments) (i : String), lookupA L i = none →
      applyOps L [⟨i, none, "clear"⟩] = L) := by
  refine ⟨fun L ops hwf _ => WFshares_applyOps L ops hwf,
    fun L i => ?_, fun L i h => ?_⟩
  · rw [applyOps_singleton, applyOps_singleton, applyOp_clear, applyOp_clear,
      eraseA_idem]
  · rw [applyOps_singleton, applyOp_clear, eraseA_of_lookupA_none _ _ h]

/-- Witness for C9 at concrete inputs: the invariant survives an assign of
two people, and clearing an absent item id is the identity. -/
theorem C9_invariant_clear_idem_witness :
    WFshares (applyOps [("item-0", [("P", (1 : ℚ))])]
      [⟨"item-1", some ["X", "Y"], "assign"⟩]) ∧
    applyOps [("item-0", [("P", (1 : ℚ))])] [⟨"item-9", none, "clear"⟩]
      = [("item-0", [("P", (1 : ℚ))])] := by
  constructor
  · apply C9_invariant_clear_idem.1
    · intro e he pr hpr
      simp only [List.mem_singleton] at he
      subst he
      simp only [List.mem_singleton] at hpr
      subst hpr
      norm_num
    · intro op hop
      simp only [List.mem_singleton] at hop
      subst hop
      exact fun _ => ⟨by simp, by decide⟩
  · apply C9_invariant_clear_idem.2.2
    simp [lookupA]

theorem lookupA_applyOp_ne (L : Assignments) (op : Op) (j : String)
    (h : op.itemId ≠ j) : lookupA (applyOp L op) j = lookupA L j := by
  obtain ⟨oid, opeople, oaction⟩ := op
  replace h : oid ≠ j := h
  unfold applyOp
  dsimp only
  by_cases hc : oaction = "clear"
  · rw [if_pos hc]
    exact lookupA_eraseA_ne _ _ _ (Ne.symm h)
  · rw [if_neg hc]
    by_cases ha : oaction = "assign"
    · rw [if_pos ha]
      cases opeople with
      | none => rfl
      | some ps =>
          dsimp only
          by_cases hlen : 0 < ps.length
          · rw [if_pos hlen]
            exact lookupA_setA_ne _ _ _ _ (Ne.symm h)
          · rw [if_neg hlen]
    · rw [if_neg ha]

/-- C10: per-item frame property of the apply loop: an item id that is not
the `itemId` of any operation in the batch keeps exactly its input share map
(the input ledger itself is a value that the pure loop never mutates). -/
theorem C10_frame (L : Assignments) (ops : List Op) (j : String)
    (h : ∀ op ∈ ops, op.itemId ≠ j) :
    lookupA (applyOps L ops) j = lookupA L j := by
  induction ops generalizing L with
  | nil => rfl
  | cons op ops ih =>
      rw [applyOps_cons, ih _ (fun o ho => h o (List.mem_cons_of_mem _ ho)),
        lookupA_applyOp_ne _ _ _ (h op (List.mem_cons_self _ _))]

/-- Witness for C10: a batch touching `item-1` and `item-2` leaves
`item-0`'s share map untouched. -/
theorem C10_frame_witness :
    lookupA (applyOps [("item-0", [("P", (1 : ℚ))])]
        [⟨"item-1", some ["X"], "assign"⟩, ⟨"item-2", none, "clear"⟩])
        "item-0"
      = lookupA [("item-0", [("P", (1 : ℚ))])] "item-0" :=
  C10_frame _ _ _ (by
    intro op hop
    rcases List.mem_cons.mp hop with rfl | hop
    · decide
    · rcases List.mem_cons.mp hop with rfl | hop
      · decide
      · cases hop)

/-- C7: with `subtotal = 0` the divisor falls back to 1, so summarize is
defined and every included person has `taxShare = tax * itemsTotal` and
`tipShare = tip * itemsTotal`. -/
theorem C7_zero_subtotal_guard (r : ReceiptData) (L : Assignments)
    (h : r.subtotal = 0) :
    ∀ s ∈ summarize r L,
      s.taxShare = r.tax * s.itemsTotal ∧
      s.tipShare = r.tip * s.itemsTotal := by
  intro s hs
  rw [summarize, List.mem_insertionSort] at hs
  simp only [rawSummaries, h, if_pos, div_one, List.mem_map] at hs
  obtain ⟨pr, -, rfl⟩ := hs
  exact ⟨rfl, rfl⟩

/-- Concrete receipt with zero subtotal used by the C7 witness. -/
def c7Receipt : ReceiptData :=
  { items := [⟨"item-0", "Water", 3⟩], subtotal := 0, tax := 2, tip := 5,
    total := 10 }

/-- Concrete ledger used by the C7 witness. -/
def c7Ledger : Assignments := [("item-0", [("A", 1)])]

/-- Witness for C7: on the zero-subtotal receipt `c7Receipt`, the single
summarized person has `taxShare = tax * itemsTotal` and
`tipShare = tip * itemsTotal`. -/
theorem C7_zero_subtotal_guard_witness :
    (⟨"A", 3, 6, 15, 24⟩ : PersonSummary).taxShare
        = c7Receipt.tax * (⟨"A", 3, 6, 15, 24⟩ : PersonSummary).itemsTotal ∧
    (⟨"A", 3, 6, 15, 24⟩ : PersonSummary).tipShare
        = c7Receipt.tip * (⟨"A", 3, 6, 15, 24⟩ : PersonSummary).itemsTotal :=
  C7_zero_subtotal_guard c7Receipt c7Ledger rfl _ (by
    norm_num [summarize, rawSummaries, accumTotals, accumItem, accumPair,
      lookupA, setA, c7Receipt, c7Ledger, List.insertionSort,
      List.orderedInsert])

/-- Concrete receipt with a zero-price item for the C1 counterexample. -/
def c1Receipt : ReceiptData :=
  { items := [⟨"item-0", "Water", 0⟩], subtotal := 5, tax := 3, tip := 4,
    total := 12 }

/-- Concrete ledger giving Amy a full share of the zero-price item. -/
def c1Ledger : Assignments := [("item-0", [("Amy", 1)])]

/-- C1 counterexample: `summarize` does NOT exclude a person whose
accumulated `itemsTotal` is 0.  Amy holds a full (nonzero) share of a
zero-price item, her accumulated item cost is 0, and she nevertheless
appears in the output as a zero-total row. -/
theorem C1_zero_total_row_counterexample :
    summarize c1Receipt c1Ledger
      = [{ name := "Amy", itemsTotal := 0, taxShare := 0, tipShare := 0,
           total := 0 }] := by
  norm_num [summarize, rawSummaries, accumTotals, accumItem, accumPair,
    lookupA, setA, c1Receipt, c1Ledger, List.insertionSort,
    List.orderedInsert]

theorem keysOf_cons {β : Type} (e : String × β) (tl : List (String × β)) :
    keysOf (e :: tl) = e.1 :: keysOf tl := rfl

theorem mem_keysOf_setA {β : Type} (m : List (String × β)) (k : String)
    (v : β) (p : String) :
    p ∈ keysOf (setA m k v) ↔ p = k ∨ p ∈ keysOf m := by
  induction m with
  | nil => simp [setA, keysOf]
  | cons hd tl ih =>
      obtain ⟨k', v'⟩ := hd
      by_cases hk : k' = k
      · subst hk
        have e1 : setA ((k', v') :: tl) k' v = (k', v) :: tl := by
          simp [setA]
        rw [e1]
        simp only [keysOf_cons, List.mem_cons]
        tauto
      · have e1 : setA ((k', v') :: tl) k v = (k', v') :: setA tl k v := by
          simp [setA, hk]
        rw [e1]
        simp only [keysOf_cons, List.mem_cons]
        rw [ih]
        tauto

theorem mem_keysOf_accumPair (price : ℚ) (acc : List (String × ℚ))
    (pr : String × ℚ) (p : String) :
    p ∈ keysOf (accumPair price acc pr) ↔ p = pr.1 ∨ p ∈ keysOf acc := by
  unfold accumPair
  cases h : lookupA acc pr.1 <;> dsimp only <;> rw [mem_keysOf_setA]

theorem mem_keysOf_foldl_accumPair (price : ℚ) (pairs : ShareMap) :
    ∀ (acc : List (String × ℚ)) (p : String),
      p ∈ keysOf (pairs.foldl (accumPair price) acc) ↔
        p ∈ keysOf acc ∨ ∃ pr ∈ pairs, pr.1 = p := by
  induction pairs with
  | nil => intro acc p; simp
  | cons hd tl ih =>
      intro acc p
      rw [List.foldl_cons, ih, mem_keysOf_accumPair]
      simp only [List.mem_cons]
      constructor
      · rintro (⟨h1 | h1⟩ | ⟨pr, h1, h2⟩)
        · exact Or.inr ⟨hd, Or.inl rfl, h1.symm⟩
        · exact Or.inl h1
        · exact Or.inr ⟨pr, Or.inr h1, h2⟩
      · rintro (h1 | ⟨pr, h1 | h1, h2⟩)
        · exact Or.inl (Or.inr h1)
        · subst h1
          exact Or.inl (Or.inl h2.symm)
        · exact Or.inr ⟨pr, h1, h2⟩

theorem mem_keysOf_accumItem (L : Assignments) (acc : List (String × ℚ))
    (item : ReceiptItem) (p : String) :
    p ∈ keysOf (accumItem L acc item) ↔
      p ∈ keysOf acc ∨ ∃ pr ∈ (lookupA L item.id).getD [], pr.1 = p := by
  unfold accumItem
  rw [mem_keysOf_foldl_accumPair]

theorem mem_keysOf_foldl_accumItem (L : Assignments)
    (items : List ReceiptItem) :
    ∀ (acc : List (String × ℚ)) (p : String),
      p ∈ keysOf (items.foldl (accumItem L) acc) ↔
        p ∈ keysOf acc ∨
          ∃ item ∈ items, ∃ pr ∈ (lookupA L item.id).getD [], pr.1 = p := by
  induction items with
  | nil => intro acc p; simp
  | cons it its ih =>
      intro acc p
      rw [List.foldl_cons, ih, mem_keysOf_accumItem]
      simp only [List.mem_cons]
      constructor
      · rintro (⟨h1 | ⟨pr, h1, h2⟩⟩ | ⟨item, h1, h2⟩)
        · exact Or.inl h1
        · exact Or.inr ⟨it, Or.inl rfl, pr, h1, h2⟩
        · exact Or.inr ⟨item, Or.inr h1, h2⟩
      · rintro (h1 | ⟨item, h1 | h1, h2⟩)
        · exact Or.inl (Or.inl h1)
        · subst h1
          exact Or.inl (Or.inr h2)
        · exact Or.inr ⟨item, h1, h2⟩

/-- C1 amended: a person appears in `summarize`'s output exactly when they
appear as a key of the ledger entry of some receipt item.  Persons holding
no entry at all are excluded, but a person whose accumulated item cost works
out to 0 (for example, one holding shares only of zero-price items) still
appears, as a zero-total row. -/
theorem C1_amended_membership (r : ReceiptData) (L : Assignments)
    (p : String) :
    (∃ s ∈ summarize r L, s.name = p) ↔
      ∃ item ∈ r.items, ∃ pr ∈ (lookupA L item.id).getD [], pr.1 = p := by
  have h1 : (∃ s ∈ summarize r L, s.name = p) ↔
      (∃ s ∈ rawSummaries r L, s.name = p) := by
    unfold summarize
    simp only [List.mem_insertionSort]
  have h2 : (∃ s ∈ rawSummaries r L, s.name = p) ↔
      p ∈ keysOf (accumTotals r L) := by
    simp only [rawSummaries]
    constructor
    · rintro ⟨s, hs, hname⟩
      rw [List.mem_map] at hs
      obtain ⟨pr, hpr, rfl⟩ := hs
      exact List.mem_map.mpr ⟨pr, hpr, hname⟩
    · intro hp
      rw [keysOf, List.mem_map] at hp
      obtain ⟨pr, hpr, hname⟩ := hp
      exact ⟨_, List.mem_map.mpr ⟨pr, hpr, rfl⟩, hname⟩
  rw [h1, h2]
  unfold accumTotals
  rw [mem_keysOf_foldl_accumItem]
  simp [keysOf]

theorem filter_orderedInsert_total (t : ℚ) (x : PersonSummary)
    (l : List PersonSummary) :
    (List.orderedInsert psGE x l).filter (fun s => decide (s.total = t)) =
      if x.total = t then
        x :: l.filter (fun s => decide (s.total = t))
      else l.filter (fun s => decide (s.total = t)) := by
  induction l with
  | nil =>
      by_cases h : x.total = t <;>
        simp [List.orderedInsert, List.filter, h]
  | cons y ys ih =>
      by_cases hxy : psGE x y
      · rw [List.orderedInsert, if_pos hxy]
        by_cases h : x.total = t <;> simp [List.filter_cons, h]
      · rw [List.orderedInsert, if_neg hxy]
        have hlt : x.total < y.total := not_le.mp hxy
        by_cases h : x.total = t
        · have hy : ¬(y.total = t) := by
            rw [← h]
            exact ne_of_gt hlt
          simp [List.filter_cons, hy, h, ih]
        · simp [List.filter_cons, h, ih]

theorem filter_insertionSort_total (t : ℚ) (l : List PersonSummary) :
    (List.insertionSort psGE l).filter (fun s => decide (s.total = t))
      = l.filter (fun s => decide (s.total = t)) := by
  induction l with
  | nil => rfl
  | cons x xs ih =>
      rw [List.insertionSort, filter_orderedInsert_total]
      by_cases h : x.total = t <;> simp [List.filter_cons, h, ih]

/-- C8: `summarize`'s output is sorted by `total` descending, and for every
total value the people carrying it appear in exactly the order of the
pre-sort list `rawSummaries` — which lists people in the order they were
first encountered while accumulating item totals — i.e. the JS sort
(stable per the ECMAScript spec) breaks ties by first-seen order. -/
theorem C8_sorted_descending_stable (r : ReceiptData) (L : Assignments) :
    (summarize r L).Sorted (fun a b => b.total ≤ a.total) ∧
    ∀ t : ℚ, (summarize r L).filter (fun s => decide (s.total = t))
      = (rawSummaries r L).filter (fun s => decide (s.total = t)) := by
  constructor
  · exact List.sorted_insertionSort psGE (rawSummaries r L)
  · intro t
    exact filter_insertionSort_total t (rawSummaries r L)

/-- The Burger/Fries receipt of the spec's scenario. -/
def c6Receipt : ReceiptData :=
  { items := [⟨"item-0", "Burger", 10⟩, ⟨"item-1", "Fries", 4⟩],
    subtotal := 14, tax := 1.4, tip := 2, total := 17.4 }

/-- The scenario's operation batch: Tom gets the burger, Tom and Sam share
the fries. -/
def c6Ops : List Op :=
  [⟨"item-0", some ["Tom"], "assign"⟩,
   ⟨"item-1", some ["Tom", "Sam"], "assign"⟩]

/-- C6: the spec's worked scenario.  Applying the batch to the empty ledger
yields `{"item-0": {Tom: 1}, "item-1": {Tom: 1/2, Sam: 1/2}}`, and
`summarize` yields Tom (itemsTotal 12, taxShare 1.4·12/14 = 1.2, tipShare
2·12/14) before Sam (itemsTotal 2, taxShare 1.4·2/14, tipShare 2·2/14,
total equal to their sum plus 2). -/
theorem C6_burger_fries_scenario :
    applyOps [] c6Ops
      = [("item-0", [("Tom", 1)]),
         ("item-1", [("Tom", 1 / 2), ("Sam", 1 / 2)])] ∧
    summarize c6Receipt (applyOps [] c6Ops)
      = [{ name := "Tom", itemsTotal := 12, taxShare := 1.4 * 12 / 14,
           tipShare := 2 * 12 / 14,
           total := 12 + 1.4 * 12 / 14 + 2 * 12 / 14 },
         { name := "Sam", itemsTotal := 2, taxShare := 1.4 * 2 / 14,
           tipShare := 2 * 2 / 14,
           total := 1.4 * 2 / 14 + 2 * 2 / 14 + 2 }] := by
  constructor
  · simp [c6Ops, applyOps, applyOp, buildShares, setA, List.foldl]
  · simp [c6Receipt, c6Ops, summarize, rawSummaries, accumTotals,
      accumItem, accumPair, applyOps, applyOp, buildShares, lookupA, setA,
      List.insertionSort, List.orderedInsert, psGE, List.foldl]
    norm_num
